import Mathlib

/-!
Verification of `enumerate-by-divisor.py`: a divisor-driven Sudoku-grid search.

The Python source is shallowly embedded below.  Strings of digits are
`List Char`, Python `set`s of digit characters are `Finset Char`, the
`defaultdict(int)` of divisor counts is a structure carrying the ordered key
list together with a total count function (defaulting to 0), and the
backtracking search over mutable state is explicit state passing where the
undo step of the source (`grid.pop()`, `used_numbers.remove`, set `remove`s)
is modelled by the explicit `uncommit` operation applied to the committed
state, exactly mirroring the mutate/revert discipline of the source.
-/

/-- `generate_symbols`: digits 0-9 minus the excluded digit; `None` models the
`ValueError` raised for '0', '2' and '5'. -/
def generate_symbols (excluded_digit : Char) : Option (Finset Char) :=
  if excluded_digit = '0' ∨ excluded_digit = '2' ∨ excluded_digit = '5' then none
  else some (({'0','1','2','3','4','5','6','7','8','9'} : Finset Char) \ {excluded_digit})

/-- `int(''.join(p))` for a list of digit characters. -/
def str_to_nat (p : List Char) : Nat :=
  p.foldl (fun n c => n * 10 + (c.toNat - '0'.toNat)) 0

/-- `generate_permutations`: all orderings of the 9 symbols as integers.  The
source iterates a Python `set`; the embedding fixes the deterministic
enumeration given by the sorted element list. -/
def generate_permutations (symbols : Finset Char) : List Nat :=
  ((symbols.sort (· ≤ ·)).permutations).map str_to_nat

/-- The divisor-count `defaultdict(int)`: insertion-ordered key list plus a
total count function that is 0 off the keys. -/
structure DivisorCounts where
  keys : List Nat
  val : Nat → Nat

/-- `divisor_counts[d] += 1` on a `defaultdict(int)`: first touch records the
key, the count at `d` increases by one. -/
def bump (dc : DivisorCounts) (d : Nat) : DivisorCounts :=
  { keys := if d ∈ dc.keys then dc.keys else dc.keys ++ [d]
    val := fun x => if x = d then dc.val d + 1 else dc.val x }

/-- The body of the `count_divisors` loop: when `i` divides `n` bump `i` and
(unless `i == n // i`, the perfect-square case) also bump `n // i`. -/
def cd_step (n : Nat) (dc : DivisorCounts) (i : Nat) : DivisorCounts :=
  if n % i = 0 then
    let dc' := bump dc i
    if i ≠ n / i then bump dc' (n / i) else dc'
  else dc

/-- `count_divisors`: run the loop body for `i` in
`range(1, int(n ** 0.5) + 1)`. -/
def count_divisors (n : Nat) (dc : DivisorCounts) : DivisorCounts :=
  (List.range' 1 (Nat.sqrt n)).foldl (cd_step n) dc

/-- `build_divisor_counts`: fold `count_divisors` over all numbers. -/
def build_divisor_counts (numbers : List Nat) : DivisorCounts :=
  numbers.foldl (fun dc n => count_divisors n dc) ⟨[], fun _ => 0⟩

/-- Little-endian decimal digits of `n`, with explicit structural fuel. -/
def dec_digits_rev (fuel n : Nat) : List Nat :=
  match fuel with
  | 0 => []
  | fuel + 1 => if n = 0 then [] else n % 10 :: dec_digits_rev fuel (n / 10)

/-- `f"{num:09}"`: the decimal form of `num` left-padded with '0' to width 9. -/
def to_padded_string (n : Nat) : List Char :=
  let ds := ((dec_digits_rev n n).reverse).map Nat.digitChar
  List.replicate (9 - ds.length) '0' ++ ds

/-- `find_numbers_with_divisor`: the zero-padded strings of the numbers
divisible by `divisor`, in input order. -/
def find_numbers_with_divisor (numbers : List Nat) (divisor : Nat) : List (List Char) :=
  (numbers.filter (fun num => num % divisor == 0)).map to_padded_string

/-- `check_digit_positions`: for each position 0-8 the set of symbols observed
there across all numbers (characters outside `symbols` are ignored). -/
def check_digit_positions (numbers : List (List Char)) (symbols : Finset Char) :
    List (Finset Char) :=
  numbers.foldl
    (fun pd num =>
      num.enum.foldl
        (fun pd p =>
          if p.2 ∈ symbols then pd.set p.1 (insert p.2 (pd.getD p.1 ∅)) else pd)
        pd)
    (List.replicate 9 ∅)

/-- The fixed row-constraint table: row index to optional (position, digit). -/
def row_clue : Nat → Option (Nat × Char)
  | 0 => some (7, '2')
  | 1 => some (8, '5')
  | 2 => some (1, '2')
  | 3 => some (2, '0')
  | 4 => none
  | 5 => some (3, '2')
  | 6 => some (4, '0')
  | 7 => some (5, '2')
  | 8 => some (6, '5')
  | _ => none

/-- `get_row_constraints`: the constraint dictionary, rows 0-8 in insertion
order, each paired with its optional (position, digit) clue. -/
def get_row_constraints : List (Nat × Option (Nat × Char)) :=
  (List.range 9).map (fun r => (r, row_clue r))

/-- `get_box_constraints`: the (row, col, digit) clues that fall inside box
`box_num`, collected in row order. -/
def get_box_constraints (box_num : Nat) : List (Nat × Nat × Char) :=
  get_row_constraints.foldl
    (fun acc rc =>
      match rc.2 with
      | none => acc
      | some (col, digit) =>
        if (rc.1 / 3) * 3 + col / 3 = box_num then acc ++ [(rc.1, col, digit)] else acc)
    []

/-- `check_box_constraints`: `num` placed at `row` must not contain, inside any
of the three boxes its row crosses, a digit that a different row's clue pins
in that same box. -/
def check_box_constraints (num : List Char) (row : Nat) : Bool :=
  (List.range 3).all fun box_col =>
    (get_box_constraints ((row / 3) * 3 + box_col)).all fun t =>
      decide (t.1 = row) || !((num.drop (box_col * 3)).take 3).contains t.2.2

/-- One step of the `matching_rows` loop of `find_valid_row_for_number`: a row
with a clue is appended when `num` matches the positional clue and passes the
row's box check. -/
def mr_step (num : List Char) (acc : List Nat) (rc : Nat × Option (Nat × Char)) :
    List Nat :=
  match rc.2 with
  | none => acc
  | some (pos, digit) =>
    if num.getD pos ' ' = digit ∧ check_box_constraints num rc.1 then acc ++ [rc.1]
    else acc

/-- The `matching_rows` accumulator of `find_valid_row_for_number`: clued rows
whose positional clue `num` matches and whose box check `num` passes. -/
def matching_rows (num : List Char) (constraints : List (Nat × Option (Nat × Char))) :
    List Nat :=
  constraints.foldl (mr_step num) []

/-- `find_valid_row_for_number`: more than one match - no row; exactly one
match - that row; no match - row 4 when its box check passes, else no row. -/
def find_valid_row_for_number (num : List Char)
    (constraints : List (Nat × Option (Nat × Char))) : Option Nat :=
  match matching_rows num constraints with
  | [] => if check_box_constraints num 4 then some 4 else none
  | [r] => some r
  | _ => none

/-- `categorize_numbers_by_row` read at one row: the numbers (in input order)
whose valid row is `r`.  The source accumulates the same lists row by row in a
`defaultdict(list)`. -/
def categorize_numbers_by_row (numbers : List (List Char)) (r : Nat) : List (List Char) :=
  numbers.filter (fun num => find_valid_row_for_number num get_row_constraints == some r)

/-- The mutable search state of `try_build_sudoku_grid`: the partial grid, the
used-number set and the per-column / per-box digit sets. -/
structure SearchState where
  grid : List (List Char)
  used : Finset (List Char)
  columns : List (Finset Char)
  boxes : List (Finset Char)
deriving DecidableEq

/-- One `column_sets[col].add(digit)`-style pass: fold index/digit pairs into a
list of digit sets. -/
def add_digits (sets : List (Finset Char)) (ps : List (Nat × Char)) : List (Finset Char) :=
  ps.foldl (fun cs p => cs.set p.1 (insert p.2 (cs.getD p.1 ∅))) sets

/-- One `column_sets[col].remove(digit)`-style pass: the reverting fold. -/
def remove_digits (sets : List (Finset Char)) (ps : List (Nat × Char)) :
    List (Finset Char) :=
  ps.foldl (fun cs p => cs.set p.1 ((cs.getD p.1 ∅).erase p.2)) sets

/-- The (column, digit) pairs of `for col, digit in enumerate(num)`. -/
def col_pairs (num : List Char) : List (Nat × Char) := num.enum

/-- The (box index, digit) pairs of the same loop:
`box_index = (row_idx // 3) * 3 + (col // 3)`. -/
def box_pairs (row_idx : Nat) (num : List Char) : List (Nat × Char) :=
  num.enum.map (fun p => ((row_idx / 3) * 3 + p.1 / 3, p.2))

/-- The validity test of the source's inner loop: no digit of `num` may
already sit in its column set or its box set. -/
def placement_ok (columns boxes : List (Finset Char)) (row_idx : Nat)
    (num : List Char) : Bool :=
  num.enum.all fun p =>
    !(decide (p.2 ∈ columns.getD p.1 ∅)) &&
      !(decide (p.2 ∈ boxes.getD ((row_idx / 3) * 3 + p.1 / 3) ∅))

/-- The forward mutations at one depth: append to the grid, mark used, add the
digits to the column and box sets. -/
def commit (row_idx : Nat) (num : List Char) (st : SearchState) : SearchState :=
  { grid := st.grid ++ [num]
    used := insert num st.used
    columns := add_digits st.columns (col_pairs num)
    boxes := add_digits st.boxes (box_pairs row_idx num) }

/-- The undo mutations of the backtrack step: pop the grid, unmark used,
remove the digits from the column and box sets. -/
def uncommit (row_idx : Nat) (num : List Char) (st : SearchState) : SearchState :=
  { grid := st.grid.dropLast
    used := st.used.erase num
    columns := remove_digits st.columns (col_pairs num)
    boxes := remove_digits st.boxes (box_pairs row_idx num) }

/-- The `for num in valid_numbers_by_row[row_idx]` loop of `backtrack`: skip
used numbers, skip invalid placements, otherwise commit and recurse via
`goNext`; on recursive failure continue from the reverted state
`uncommit ... (commit ...)`. -/
def try_candidates (goNext : SearchState → Option (List (List Char)))
    (st : SearchState) : List (List Char) → Option (List (List Char))
  | [] => none
  | num :: rest =>
    if num ∈ st.used then try_candidates goNext st rest
    else if placement_ok st.columns st.boxes st.grid.length num then
      match goNext (commit st.grid.length num st) with
      | some result => some result
      | none =>
        try_candidates goNext (uncommit st.grid.length num (commit st.grid.length num st))
          rest
    else try_candidates goNext st rest

/-- `backtrack`: a full grid is returned as-is, otherwise try the eligible
candidates of the current row.  The fuel counts the rows still to fill; the
source's recursion depth is bounded by the same quantity. -/
def backtrack (valid : Nat → List (List Char)) : Nat → SearchState →
    Option (List (List Char))
  | fuel, st =>
    if st.grid.length = 9 then some st.grid
    else
      match fuel with
      | 0 => none
      | fuel + 1 =>
        try_candidates (fun st' => backtrack valid fuel st') st (valid st.grid.length)

/-- `try_build_sudoku_grid`: categorize the numbers by eligible row, return
`None` at once when some row 0-8 has no candidate, otherwise run the
backtracking search from the empty state. -/
def try_build_sudoku_grid (numbers : List (List Char)) : Option (List (List Char)) :=
  if (List.range 9).any (fun i => (categorize_numbers_by_row numbers i).isEmpty) then none
  else
    backtrack (fun r => categorize_numbers_by_row numbers r) 9
      ⟨[], ∅, List.replicate 9 ∅, List.replicate 9 ∅⟩

/-- `analyze_divisor`: filter the numbers by the divisor, require every
position to exhibit the full symbol set, then attempt the grid build.  The
source returns a success flag and prints the grid; the embedding returns the
grid itself. -/
def analyze_divisor (divisor : Nat) (numbers : List Nat) (symbols : Finset Char) :
    Option (List (List Char)) :=
  let divisible_numbers := find_numbers_with_divisor numbers divisor
  let position_digits := check_digit_positions divisible_numbers symbols
  if position_digits.all (fun digits => digits.card = symbols.card) then
    try_build_sudoku_grid divisible_numbers
  else none

/-- The `for divisor, count in ...: if count >= 9: if analyze_divisor(...)`
loop of `main`, run over an explicit divisor list: first success wins. -/
def run_divisors (numbers : List Nat) (symbols : Finset Char) :
    List Nat → Option (Nat × List (List Char))
  | [] => none
  | d :: rest =>
    match analyze_divisor d numbers symbols with
    | some grid => some (d, grid)
    | none => run_divisors numbers symbols rest

/-- `sorted(divisor_counts.items(), reverse=True)` restricted to the
qualifying divisors: keys in descending order, counts at least 9. -/
def qualifying_divisors (dc : DivisorCounts) : List Nat :=
  (dc.keys.insertionSort (· ≥ ·)).filter (fun d => 9 ≤ dc.val d)

/-- The composed pipeline of `main` after argument parsing: symbols, all
permutations, divisor counts, then the divisor loop.  The result carries the
analyzed divisor sequence together with the first success (or `none`). -/
def main_pipeline (excluded_digit : Char) :
    Option (List Nat × Option (Nat × List (List Char))) :=
  match generate_symbols excluded_digit with
  | none => none
  | some symbols =>
    let numbers := generate_permutations symbols
    let divisor_counts := build_divisor_counts numbers
    let qualifying := qualifying_divisors divisor_counts
    some (qualifying, run_divisors numbers symbols qualifying)

/-! ### Row-constraint table lemmas -/

theorem mem_get_row_constraints {r : Nat} {o : Option (Nat × Char)} :
    (r, o) ∈ get_row_constraints ↔ r < 9 ∧ o = row_clue r := by
  constructor
  · intro h
    simp only [get_row_constraints, List.mem_map, List.mem_range] at h
    obtain ⟨r', hr', heq⟩ := h
    obtain ⟨rfl, rfl⟩ := Prod.mk.injEq .. ▸ heq
    exact ⟨hr', rfl⟩
  · rintro ⟨hr, rfl⟩
    simp only [get_row_constraints, List.mem_map, List.mem_range]
    exact ⟨r, hr, rfl⟩

theorem mr_step_acc (num : List Char) (acc : List Nat) (rc : Nat × Option (Nat × Char)) :
    mr_step num acc rc = acc ++ mr_step num [] rc := by
  rcases rc with ⟨r, _ | ⟨pos, digit⟩⟩
  · simp [mr_step]
  · simp only [mr_step]
    split
    · simp
    · simp

theorem foldl_mr_step_acc (num : List Char) (cs : List (Nat × Option (Nat × Char)))
    (acc : List Nat) :
    cs.foldl (mr_step num) acc = acc ++ cs.foldl (mr_step num) [] := by
  induction cs generalizing acc with
  | nil => simp
  | cons c cs ih =>
    rw [List.foldl_cons, List.foldl_cons, ih (mr_step num acc c),
      ih (mr_step num [] c), mr_step_acc num acc c, List.append_assoc]

theorem mem_mr_step_nil {num : List Char} {r : Nat} {rc : Nat × Option (Nat × Char)} :
    r ∈ mr_step num [] rc ↔
      rc.1 = r ∧ ∃ pos digit, rc.2 = some (pos, digit) ∧
        num.getD pos ' ' = digit ∧ check_box_constraints num rc.1 = true := by
  rcases rc with ⟨r', _ | ⟨pos, digit⟩⟩
  · simp [mr_step]
  · simp only [mr_step]
    split
    · rename_i hcond
      simp only [List.nil_append, List.mem_singleton]
      constructor
      · rintro rfl
        exact ⟨rfl, pos, digit, rfl, hcond.1, hcond.2⟩
      · rintro ⟨rfl, _⟩
        rfl
    · rename_i hcond
      simp only [List.not_mem_nil, false_iff, not_and]
      rintro rfl ⟨pos', digit', heq, hpd, hbox⟩
      obtain ⟨rfl, rfl⟩ := Prod.mk.injEq .. ▸ Option.some.injEq .. ▸ heq
      exact hcond ⟨hpd, hbox⟩

theorem mem_matching_rows {num : List Char} {cs : List (Nat × Option (Nat × Char))}
    {r : Nat} :
    r ∈ matching_rows num cs ↔
      ∃ rc ∈ cs, rc.1 = r ∧ ∃ pos digit, rc.2 = some (pos, digit) ∧
        num.getD pos ' ' = digit ∧ check_box_constraints num r = true := by
  unfold matching_rows
  induction cs with
  | nil => simp
  | cons c cs ih =>
    rw [List.foldl_cons, foldl_mr_step_acc]
    simp only [List.mem_append, ih, List.mem_cons]
    constructor
    · rintro (hc | ⟨rc, hrc, hr, rest⟩)
      · obtain ⟨hr, rest⟩ := mem_mr_step_nil.mp hc
        exact ⟨c, Or.inl rfl, hr, hr ▸ rest⟩
      · exact ⟨rc, Or.inr hrc, hr, rest⟩
    · rintro ⟨rc, hrc | hrc, hr, rest⟩
      · subst hrc
        exact Or.inl (mem_mr_step_nil.mpr ⟨hr, hr ▸ rest⟩)
      · exact Or.inr ⟨rc, hrc, hr, rest⟩

theorem mem_matching_rows_table {num : List Char} {r : Nat} :
    r ∈ matching_rows num get_row_constraints ↔
      r < 9 ∧ ∃ pos digit, row_clue r = some (pos, digit) ∧
        num.getD pos ' ' = digit ∧ check_box_constraints num r = true := by
  rw [mem_matching_rows]
  constructor
  · rintro ⟨⟨r', o⟩, hmem, rfl, rest⟩
    obtain ⟨hlt, rfl⟩ := mem_get_row_constraints.mp hmem
    exact ⟨hlt, rest⟩
  · rintro ⟨hlt, rest⟩
    exact ⟨(r, row_clue r), mem_get_row_constraints.mpr ⟨hlt, rfl⟩, rfl, rest⟩

/-! ### C2: candidates matching several positional clues -/

/-- Claim C2 counterexample input: a permutation of the alphabet without '1'
that matches the positional clues of row 0 (position 7 is '2') and of row 1
(position 8 is '5'). -/
def c2_num : List Char := ['3', '4', '6', '7', '8', '9', '0', '2', '5']

/-- Claim C2 is false on the code: `c2_num` matches the positional clues of
the two distinct clued rows 0 and 1, yet `find_valid_row_for_number` does not
return `none` (it returns row 4), because neither of those rows passes the box
check and the code only counts rows passing both tests. -/
theorem c2_counterexample :
    (c2_num.length = 9 ∧ c2_num.getD 7 ' ' = '2' ∧ row_clue 0 = some (7, '2') ∧
      c2_num.getD 8 ' ' = '5' ∧ row_clue 1 = some (8, '5')) ∧
      find_valid_row_for_number c2_num get_row_constraints ≠ none := by
  exact ⟨by decide, by decide⟩

/-- Claim C2 (amended): a candidate is excluded from every row whenever two or
more distinct clued rows pass both its positional-clue match and its box
check, i.e. whenever `matching_rows` has at least two entries. -/
theorem ambiguous_candidate_excluded (num : List Char)
    (h : 2 ≤ (matching_rows num get_row_constraints).length) :
    find_valid_row_for_number num get_row_constraints = none := by
  unfold find_valid_row_for_number
  rcases hm : matching_rows num get_row_constraints with _ | ⟨r, _ | ⟨r', rest⟩⟩
  · rw [hm] at h
    simp at h
  · rw [hm] at h
    simp at h
  · rfl

/-- Claim C2 witness: `['1','3','4','6','1','2','8','2','9']` passes both the
positional and box tests for rows 0 and 7, and is excluded. -/
theorem ambiguous_candidate_excluded_witness :
    2 ≤ (matching_rows ['1', '3', '4', '6', '1', '2', '8', '2', '9']
        get_row_constraints).length ∧
      find_valid_row_for_number ['1', '3', '4', '6', '1', '2', '8', '2', '9']
        get_row_constraints = none :=
  ⟨by decide, ambiguous_candidate_excluded _ (by decide)⟩

/-! ### C3: eligibility for row 4 -/

/-- Claim C3 counterexample input: a permutation of the alphabet without '1'
matching exactly one positional clue, that of row 1 (position 8 is '5'). -/
def c3_num : List Char := ['3', '4', '6', '7', '8', '9', '2', '0', '5']

/-- Claim C3 is false on the code: `c3_num` matches the positional clue of the
clued row 1, yet `find_valid_row_for_number` returns row 4: row 1 fails its
box check ('2' sits in the right-hand box), so no clued row survives and the
code falls through to the row-4 box test. -/
theorem c3_counterexample :
    (c3_num.length = 9 ∧ c3_num.getD 8 ' ' = '5' ∧ row_clue 1 = some (8, '5')) ∧
      find_valid_row_for_number c3_num get_row_constraints = some 4 := by
  exact ⟨by decide, by decide⟩

/-- Claim C3 (amended): `find_valid_row_for_number` returns row 4 exactly when
no clued row passes both the positional match and the box check (that is,
`matching_rows` is empty) and the candidate passes row 4's box check. -/
theorem row4_iff_no_matching_row (num : List Char) :
    find_valid_row_for_number num get_row_constraints = some 4 ↔
      matching_rows num get_row_constraints = [] ∧
        check_box_constraints num 4 = true := by
  unfold find_valid_row_for_number
  rcases hm : matching_rows num get_row_constraints with _ | ⟨r, _ | ⟨r', rest⟩⟩
  · constructor
    · intro h4
      refine ⟨rfl, ?_⟩
      by_contra hbox
      rw [if_neg hbox] at h4
      exact Option.noConfusion h4
    · rintro ⟨-, hbox⟩
      rw [if_pos hbox]
  · have hr : r ∈ matching_rows num get_row_constraints := by
      rw [hm]
      exact List.mem_singleton_self r
    obtain ⟨-, pos, digit, hclue, -⟩ := mem_matching_rows_table.mp hr
    constructor
    · intro h4
      obtain rfl : r = 4 := Option.some.injEq .. ▸ h4
      simp [row_clue] at hclue
    · rintro ⟨heq, -⟩
      exact absurd heq (by simp)
  · constructor
    · intro h
      exact Option.noConfusion h
    · rintro ⟨heq, -⟩
      exact absurd heq (by simp)

/-! ### C9: early infeasibility exit -/

/-- Claim C9: when some row 0-8 has an empty eligible-candidate list, the grid
builder returns `none` through the early-exit branch, before the backtracking
search starts. -/
theorem empty_row_infeasible (numbers : List (List Char)) (i : Nat) (hi : i < 9)
    (hempty : categorize_numbers_by_row numbers i = []) :
    try_build_sudoku_grid numbers = none := by
  unfold try_build_sudoku_grid
  rw [if_pos]
  rw [List.any_eq_true]
  exact ⟨i, List.mem_range.mpr hi, by rw [hempty]; rfl⟩

/-- Claim C9 witness: the empty candidate list has every row empty and the
builder reports infeasibility at once. -/
theorem empty_row_infeasible_witness :
    (0 < 9 ∧ categorize_numbers_by_row [] 0 = []) ∧
      try_build_sudoku_grid [] = none :=
  ⟨⟨by decide, rfl⟩, empty_row_infeasible [] 0 (by decide) rfl⟩

/-! ### C10: positional coverage sets -/

theorem getD_mem_of_lt {α : Type} {l : List α} {n : Nat} {d : α} (h : n < l.length) :
    l.getD n d ∈ l := by
  rw [List.getD_eq_getElem?_getD, List.getElem?_eq_getElem h]
  exact List.getElem_mem h

theorem cdp_inner_subset (symbols : Finset Char) (ps : List (Nat × Char))
    (pd : List (Finset Char)) (h : ∀ s ∈ pd, s ⊆ symbols) :
    ∀ s ∈ ps.foldl
        (fun pd p =>
          if p.2 ∈ symbols then pd.set p.1 (insert p.2 (pd.getD p.1 ∅)) else pd)
        pd,
      s ⊆ symbols := by
  induction ps generalizing pd with
  | nil => exact h
  | cons p ps ih =>
    rw [List.foldl_cons]
    refine ih _ ?_
    split
    · rename_i hmem
      intro s hs
      rcases List.mem_or_eq_of_mem_set hs with hold | rfl
      · exact h s hold
      · refine Finset.insert_subset hmem ?_
        rcases Nat.lt_or_ge p.1 pd.length with hlt | hge
        · exact h _ (getD_mem_of_lt hlt)
        · rw [List.getD_eq_default _ _ hge]
          exact Finset.empty_subset symbols
    · exact h

theorem cdp_inner_length (symbols : Finset Char) (ps : List (Nat × Char))
    (pd : List (Finset Char)) :
    (ps.foldl
        (fun pd p =>
          if p.2 ∈ symbols then pd.set p.1 (insert p.2 (pd.getD p.1 ∅)) else pd)
        pd).length = pd.length := by
  induction ps generalizing pd with
  | nil => rfl
  | cons p ps ih =>
    rw [List.foldl_cons, ih]
    split
    · exact List.length_set ..
    · rfl

theorem cdp_outer_subset (symbols : Finset Char) (numbers : List (List Char))
    (pd : List (Finset Char)) (h : ∀ s ∈ pd, s ⊆ symbols) :
    ∀ s ∈ numbers.foldl
        (fun pd num =>
          num.enum.foldl
            (fun pd p =>
              if p.2 ∈ symbols then pd.set p.1 (insert p.2 (pd.getD p.1 ∅)) else pd)
            pd)
        pd,
      s ⊆ symbols := by
  induction numbers generalizing pd with
  | nil => exact h
  | cons num numbers ih =>
    rw [List.foldl_cons]
    exact ih _ (cdp_inner_subset symbols num.enum pd h)

theorem cdp_outer_length (symbols : Finset Char) (numbers : List (List Char))
    (pd : List (Finset Char)) :
    (numbers.foldl
        (fun pd num =>
          num.enum.foldl
            (fun pd p =>
              if p.2 ∈ symbols then pd.set p.1 (insert p.2 (pd.getD p.1 ∅)) else pd)
            pd)
        pd).length = pd.length := by
  induction numbers generalizing pd with
  | nil => rfl
  | cons num numbers ih =>
    rw [List.foldl_cons, ih, cdp_inner_length]

/-- Claim C10: the coverage checker returns nine per-position sets, each a
subset of the symbol alphabet (foreign characters are ignored), so the size
test `len(position set) == len(symbols)` used by `analyze_divisor` holds
exactly when the observed set is the whole alphabet. -/
theorem check_digit_positions_spec (numbers : List (List Char)) (symbols : Finset Char)
    (hlen : ∀ num ∈ numbers, num.length = 9) :
    (check_digit_positions numbers symbols).length = 9 ∧
      ∀ s ∈ check_digit_positions numbers symbols,
        s ⊆ symbols ∧ (s.card = symbols.card ↔ s = symbols) := by
  constructor
  · rw [check_digit_positions, cdp_outer_length]
    rfl
  · intro s hs
    have hsub : s ⊆ symbols := by
      refine cdp_outer_subset symbols numbers (List.replicate 9 ∅) ?_ s hs
      intro t ht
      rw [List.eq_of_mem_replicate ht]
      exact Finset.empty_subset symbols
    refine ⟨hsub, ?_, fun h => by rw [h]⟩
    intro hcard
    exact Finset.eq_of_subset_of_card_le hsub hcard.ge

/-- Claim C10 witness: one 9-character string over the alphabet `{'1'}`. -/
theorem check_digit_positions_spec_witness :
    (∀ num ∈ [['1', '1', '1', '1', '1', '1', '1', '1', '1']], num.length = 9) ∧
      (check_digit_positions [['1', '1', '1', '1', '1', '1', '1', '1', '1']]
          {'1'}).length = 9 :=
  ⟨by decide,
    (check_digit_positions_spec [['1', '1', '1', '1', '1', '1', '1', '1', '1']] {'1'}
        (by decide)).1⟩

/-! ### C8: the candidate filter -/

theorem dec_digits_rev_eq_digits (fuel n : Nat) (h : n ≤ fuel) :
    dec_digits_rev fuel n = Nat.digits 10 n := by
  induction fuel generalizing n with
  | zero =>
    obtain rfl : n = 0 := Nat.le_zero.mp h
    rw [Nat.digits_zero]
    rfl
  | succ fuel ih =>
    rcases Nat.eq_zero_or_pos n with rfl | hpos
    · rw [Nat.digits_zero]
      simp [dec_digits_rev]
    · rw [dec_digits_rev, if_neg (Nat.pos_iff_ne_zero.mp hpos),
        ih (n / 10) ?_, Nat.digits_def' (by norm_num : (1 : Nat) < 10) hpos]
      have := Nat.div_lt_self hpos (by norm_num : (1 : Nat) < 10)
      omega

theorem digits_length_le_nine {n : Nat} (h : n < 10 ^ 9) :
    (Nat.digits 10 n).length ≤ 9 := by
  rcases Nat.eq_zero_or_pos n with rfl | hpos
  · simp
  · by_contra hgt
    have h10 : 10 ≤ (Nat.digits 10 n).length := by omega
    have hle := Nat.base_pow_length_digits_le 10 n (by norm_num)
      (Nat.pos_iff_ne_zero.mp hpos)
    have h1 : (10 : Nat) ^ 10 ≤ 10 ^ (Nat.digits 10 n).length :=
      Nat.pow_le_pow_right (by norm_num) h10
    have h2 : (10 : Nat) * n < 10 * 10 ^ 9 := by omega
    have h3 : (10 : Nat) * 10 ^ 9 = 10 ^ 10 := by norm_num
    omega

theorem to_padded_string_length {n : Nat} (h : n < 10 ^ 9) :
    (to_padded_string n).length = 9 := by
  have hlen : ((dec_digits_rev n n).reverse.map Nat.digitChar).length ≤ 9 := by
    rw [List.length_map, List.length_reverse, dec_digits_rev_eq_digits n n le_rfl]
    exact digits_length_le_nine h
  simp only [to_padded_string, List.length_append, List.length_replicate]
  omega

/-- Claim C8: the candidate filter returns exactly the zero-padded decimal
strings of the input numbers divisible by the divisor, and each returned
string has length 9 when every candidate is below 10^9. -/
theorem find_numbers_with_divisor_spec (numbers : List Nat) (d : Nat) (hd : 0 < d)
    (hlt : ∀ n ∈ numbers, n < 10 ^ 9) :
    (∀ s, s ∈ find_numbers_with_divisor numbers d ↔
        ∃ n, n ∈ numbers ∧ n % d = 0 ∧ s = to_padded_string n) ∧
      ∀ s ∈ find_numbers_with_divisor numbers d, s.length = 9 := by
  have hmem : ∀ s, s ∈ find_numbers_with_divisor numbers d ↔
      ∃ n, n ∈ numbers ∧ n % d = 0 ∧ s = to_padded_string n := by
    intro s
    simp only [find_numbers_with_divisor, List.mem_map, List.mem_filter, beq_iff_eq]
    constructor
    · rintro ⟨n, ⟨hn, hmod⟩, rfl⟩
      exact ⟨n, hn, hmod, rfl⟩
    · rintro ⟨n, hn, hmod, rfl⟩
      exact ⟨n, ⟨hn, hmod⟩, rfl⟩
  refine ⟨hmem, ?_⟩
  intro s hs
  obtain ⟨n, hn, -, rfl⟩ := (hmem s).mp hs
  exact to_padded_string_length (hlt n hn)

/-- Claim C8 witness: of `[61728395, 10]`, exactly the multiples of 5 are
kept, padded to nine characters. -/
theorem find_numbers_with_divisor_spec_witness :
    ((0 : Nat) < 5 ∧ ∀ n ∈ [61728395, 10], n < 10 ^ 9) ∧
      ∀ s ∈ find_numbers_with_divisor [61728395, 10] 5, s.length = 9 :=
  ⟨⟨by decide, by decide⟩,
    (find_numbers_with_divisor_spec [61728395, 10] 5 (by decide) (by decide)).2⟩

/-! ### C4: pipeline determinism -/

/-- Claim C4: the composed pipeline (symbol set, permutations, divisor
counts, descending qualifying-divisor loop) is a pure function of the
excluded digit: two runs produce the same analyzed divisor sequence and the
same first success or infeasibility outcome. -/
theorem pipeline_deterministic (excluded_digit : Char)
    (r1 r2 : Option (List Nat × Option (Nat × List (List Char))))
    (h1 : r1 = main_pipeline excluded_digit) (h2 : r2 = main_pipeline excluded_digit) :
    r1 = r2 := by
  rw [h1, h2]

/-- Claim C4 witness: two evaluations on excluded digit '4' agree. -/
theorem pipeline_deterministic_witness :
    (main_pipeline '4' = main_pipeline '4' ∧ main_pipeline '4' = main_pipeline '4') ∧
      main_pipeline '4' = main_pipeline '4' :=
  ⟨⟨rfl, rfl⟩, pipeline_deterministic '4' (main_pipeline '4') (main_pipeline '4') rfl rfl⟩

/-! ### C5: divisor-count correctness -/

/-- The iterations of the `count_divisors` loop that increment the count of
`d` while processing `n`. -/
def touches (n d i : Nat) : Prop :=
  n % i = 0 ∧ (i = d ∨ (n / i = d ∧ i ≠ n / i))

instance (n d i : Nat) : Decidable (touches n d i) := by
  unfold touches
  infer_instance

theorem bump_val (dc : DivisorCounts) (d x : Nat) :
    (bump dc d).val x = if x = d then dc.val x + 1 else dc.val x := by
  simp only [bump]
  split
  · rename_i h
    rw [h]
  · rfl

theorem bump_keys_mono (dc : DivisorCounts) (d : Nat) : dc.keys ⊆ (bump dc d).keys := by
  simp only [bump]
  split
  · exact fun x hx => hx
  · exact fun x hx => List.mem_append_left _ hx

theorem mem_bump_keys_self (dc : DivisorCounts) (d : Nat) : d ∈ (bump dc d).keys := by
  simp only [bump]
  split
  · assumption
  · exact List.mem_append_right _ (List.mem_singleton_self d)

theorem bump_keys_nodup {dc : DivisorCounts} (h : dc.keys.Nodup) (d : Nat) :
    (bump dc d).keys.Nodup := by
  simp only [bump]
  split
  · exact h
  · rename_i hnot
    simp [List.nodup_append, h, hnot]

theorem mem_bump_keys {dc : DivisorCounts} {d k : Nat} (h : k ∈ (bump dc d).keys) :
    k ∈ dc.keys ∨ k = d := by
  simp only [bump] at h
  split at h
  · exact Or.inl h
  · rcases List.mem_append.mp h with h | h
    · exact Or.inl h
    · exact Or.inr (List.mem_singleton.mp h)

theorem cd_step_val (n : Nat) (dc : DivisorCounts) (i d : Nat) :
    (cd_step n dc i).val d = dc.val d + (if touches n d i then 1 else 0) := by
  simp only [cd_step]
  by_cases hmod : n % i = 0
  · rw [if_pos hmod]
    by_cases hne : i ≠ n / i
    · rw [if_pos hne, bump_val, bump_val]
      by_cases hdq : d = n / i
      · have hdi : ¬d = i := fun h => hne (h ▸ hdq)
        rw [if_pos hdq, if_neg hdi, if_pos (show touches n d i from ⟨hmod, Or.inr ⟨hdq.symm, hne⟩⟩)]
      · rw [if_neg hdq]
        by_cases hdi : d = i
        · rw [if_pos hdi, if_pos (show touches n d i from ⟨hmod, Or.inl hdi.symm⟩)]
        · rw [if_neg hdi, if_neg (show ¬touches n d i from ?_), Nat.add_zero]
          rintro ⟨-, h | ⟨h, -⟩⟩
          · exact hdi h.symm
          · exact hdq h.symm
    · rw [if_neg hne, bump_val]
      push_neg at hne
      by_cases hdi : d = i
      · rw [if_pos hdi, if_pos (show touches n d i from ⟨hmod, Or.inl hdi.symm⟩)]
      · rw [if_neg hdi, if_neg (show ¬touches n d i from ?_), Nat.add_zero]
        rintro ⟨-, h | ⟨-, h⟩⟩
        · exact hdi h.symm
        · exact h hne
  · rw [if_neg hmod, if_neg (show ¬touches n d i from fun h => hmod h.1), Nat.add_zero]

theorem foldl_cd_step_val (n d : Nat) (L : List Nat) (dc : DivisorCounts) :
    ((L.foldl (cd_step n) dc).val d) =
      dc.val d + L.countP (fun i => decide (touches n d i)) := by
  induction L generalizing dc with
  | nil => simp
  | cons i L ih =>
    rw [List.foldl_cons, ih, List.countP_cons, cd_step_val]
    simp only [decide_eq_true_eq]
    omega

theorem countP_touches_of_not_dvd {n d : Nat} (h : ¬d ∣ n) :
    (List.range' 1 (Nat.sqrt n)).countP (fun i => decide (touches n d i)) = 0 := by
  rw [List.countP_eq_zero]
  intro i _
  simp only [decide_eq_true_eq]
  rintro ⟨hmod, hi | ⟨hdiv, -⟩⟩
  · exact h (hi ▸ Nat.dvd_of_mod_eq_zero hmod)
  · have hidvd : i ∣ n := Nat.dvd_of_mod_eq_zero hmod
    exact h (hdiv ▸ ⟨i, (Nat.div_mul_cancel hidvd).symm⟩)

theorem countP_touches_of_dvd {n d : Nat} (hn : 0 < n) (h : d ∣ n) :
    (List.range' 1 (Nat.sqrt n)).countP (fun i => decide (touches n d i)) = 1 := by
  have hd0 : 0 < d := Nat.pos_of_dvd_of_pos h hn
  have hq : d * (n / d) = n := Nat.mul_div_cancel' h
  have hq0 : 0 < n / d := Nat.div_pos (Nat.le_of_dvd hn h) hd0
  have hmem : min d (n / d) ∈ List.range' 1 (Nat.sqrt n) := by
    rw [List.mem_range'_1]
    constructor
    · omega
    · have : min d (n / d) * min d (n / d) ≤ n := by
        calc min d (n / d) * min d (n / d) ≤ d * (n / d) :=
          Nat.mul_le_mul (Nat.min_le_left ..) (Nat.min_le_right ..)
        _ = n := hq
      have := Nat.le_sqrt.mpr this
      omega
  have htouch : touches n d (min d (n / d)) := by
    rcases Nat.le_total d (n / d) with hle | hle
    · rw [Nat.min_eq_left hle]
      exact ⟨Nat.mod_eq_zero_of_dvd h, Or.inl rfl⟩
    · rw [Nat.min_eq_right hle]
      have hqdvd : n / d ∣ n := ⟨d, (Nat.div_mul_cancel h).symm⟩
      have hdd : n / (n / d) = d := Nat.div_div_self h (Nat.pos_iff_ne_zero.mp hn)
      rcases Nat.eq_or_lt_of_le hle with heq | hlt
      · rw [heq]
        exact ⟨Nat.mod_eq_zero_of_dvd h, Or.inl rfl⟩
      · refine ⟨Nat.mod_eq_zero_of_dvd hqdvd, Or.inr ⟨hdd, ?_⟩⟩
        rw [hdd]
        omega
  have huniq : ∀ j ∈ List.range' 1 (Nat.sqrt n), touches n d j → j = min d (n / d) := by
    intro j hj htj
    rw [List.mem_range'_1] at hj
    have hjsq : j * j ≤ n := Nat.le_sqrt.mp (by omega)
    obtain ⟨hmodj, hcase⟩ := htj
    have hjdvd : j ∣ n := Nat.dvd_of_mod_eq_zero hmodj
    rcases hcase with rfl | ⟨hdj, hne⟩
    · have : j * j ≤ j * (n / j) := by
        rw [Nat.mul_div_cancel' hjdvd]
        exact hjsq
      have hjle : j ≤ n / j := Nat.le_of_mul_le_mul_left this (by omega)
      rw [Nat.min_eq_left hjle]
    · have hjq : j = n / d := by
        have := Nat.div_div_self hjdvd (Nat.pos_iff_ne_zero.mp hn)
        rw [hdj] at this
        omega
      subst hjq
      have hlt : n / d < d := by
        have hle' : n / d ≤ d := by
          have : (n / d) * (n / d) ≤ (n / d) * d := by
            calc (n / d) * (n / d) ≤ n := hjsq
            _ = (n / d) * d := (Nat.div_mul_cancel h).symm
          exact Nat.le_of_mul_le_mul_left this hq0
        rcases Nat.eq_or_lt_of_le hle' with heq | hlt
        · rw [hdj] at hne
          omega
        · exact hlt
      rw [Nat.min_eq_right (Nat.le_of_lt hlt)]
  refine Nat.le_antisymm ?_ ?_
  · rw [List.countP_eq_length_filter]
    have hsub : (List.range' 1 (Nat.sqrt n)).filter (fun i => decide (touches n d i)) ⊆
        [min d (n / d)] := by
      intro x hx
      rw [List.mem_filter, decide_eq_true_eq] at hx
      rw [List.mem_singleton]
      exact huniq x hx.1 hx.2
    have hnd : ((List.range' 1 (Nat.sqrt n)).filter
        (fun i => decide (touches n d i))).Nodup :=
      (List.nodup_range' ..).filter _
    simpa using (hnd.subperm hsub).length_le
  · rw [Nat.succ_le, List.countP_pos]
    exact ⟨min d (n / d), hmem, by simpa using htouch⟩

theorem count_divisors_val {n : Nat} (hn : 0 < n) (dc : DivisorCounts) (d : Nat) :
    (count_divisors n dc).val d = dc.val d + (if d ∣ n then 1 else 0) := by
  rw [count_divisors, foldl_cd_step_val]
  by_cases h : d ∣ n
  · rw [if_pos h, countP_touches_of_dvd hn h]
  · rw [if_neg h, countP_touches_of_not_dvd h]

theorem cd_step_keys_mono (n : Nat) (dc : DivisorCounts) (i : Nat) :
    dc.keys ⊆ (cd_step n dc i).keys := by
  simp only [cd_step]
  split
  · split
    · exact (bump_keys_mono dc i).trans (bump_keys_mono ..)
    · exact bump_keys_mono dc i
  · exact fun x hx => hx

theorem foldl_cd_step_keys_mono (n : Nat) (L : List Nat) (dc : DivisorCounts) :
    dc.keys ⊆ (L.foldl (cd_step n) dc).keys := by
  induction L generalizing dc with
  | nil => exact fun x hx => hx
  | cons i L ih => exact (cd_step_keys_mono n dc i).trans (ih _)

theorem foldl_cd_step_keys_mem (n d : Nat) (L : List Nat) (dc : DivisorCounts)
    (h : ∃ i ∈ L, n % i = 0 ∧ (i = d ∨ n / i = d)) :
    d ∈ (L.foldl (cd_step n) dc).keys := by
  induction L generalizing dc with
  | nil => simp at h
  | cons i L ih =>
    rw [List.foldl_cons]
    rcases h with ⟨j, hj, hmod, hcase⟩
    rcases List.mem_cons.mp hj with rfl | hjL
    · refine foldl_cd_step_keys_mono n L _ ?_
      simp only [cd_step, if_pos hmod]
      rcases hcase with rfl | hdiv
      · split
        · exact bump_keys_mono _ _ (mem_bump_keys_self dc j)
        · exact mem_bump_keys_self dc j
      · split
        · exact hdiv ▸ mem_bump_keys_self (bump dc j) (n / j)
        · rename_i hne
          push_neg at hne
          rw [← hdiv, ← hne]
          exact mem_bump_keys_self dc j
    · exact ih _ ⟨j, hjL, hmod, hcase⟩

theorem count_divisors_keys_mem {n d : Nat} (hn : 0 < n) (h : d ∣ n)
    (dc : DivisorCounts) : d ∈ (count_divisors n dc).keys := by
  have hd0 : 0 < d := Nat.pos_of_dvd_of_pos h hn
  have hq : d * (n / d) = n := Nat.mul_div_cancel' h
  have hq0 : 0 < n / d := Nat.div_pos (Nat.le_of_dvd hn h) hd0
  refine foldl_cd_step_keys_mem n d _ dc ⟨min d (n / d), ?_, ?_, ?_⟩
  · rw [List.mem_range'_1]
    refine ⟨by omega, ?_⟩
    have : min d (n / d) * min d (n / d) ≤ n := by
      calc min d (n / d) * min d (n / d) ≤ d * (n / d) :=
        Nat.mul_le_mul (Nat.min_le_left ..) (Nat.min_le_right ..)
      _ = n := hq
    have := Nat.le_sqrt.mpr this
    omega
  · rcases Nat.le_total d (n / d) with hle | hle
    · rw [Nat.min_eq_left hle]
      exact Nat.mod_eq_zero_of_dvd h
    · rw [Nat.min_eq_right hle]
      exact Nat.mod_eq_zero_of_dvd ⟨d, (Nat.div_mul_cancel h).symm⟩
  · rcases Nat.le_total d (n / d) with hle | hle
    · rw [Nat.min_eq_left hle]
      exact Or.inl rfl
    · rw [Nat.min_eq_right hle]
      exact Or.inr (Nat.div_div_self h (Nat.pos_iff_ne_zero.mp hn))

theorem cd_step_keys_nodup {n : Nat} {dc : DivisorCounts} (h : dc.keys.Nodup)
    (i : Nat) : (cd_step n dc i).keys.Nodup := by
  simp only [cd_step]
  split
  · split
    · exact bump_keys_nodup (bump_keys_nodup h i) _
    · exact bump_keys_nodup h i
  · exact h

theorem count_divisors_keys_nodup {n : Nat} {dc : DivisorCounts}
    (h : dc.keys.Nodup) : (count_divisors n dc).keys.Nodup := by
  rw [count_divisors]
  generalize List.range' 1 (Nat.sqrt n) = L
  induction L generalizing dc with
  | nil => exact h
  | cons i L ih => exact ih (cd_step_keys_nodup h i)

theorem build_foldl_val (d : Nat) (numbers : List Nat) (dc : DivisorCounts)
    (hpos : ∀ n ∈ numbers, 0 < n) :
    (numbers.foldl (fun dc n => count_divisors n dc) dc).val d =
      dc.val d + numbers.countP (fun n => decide (d ∣ n)) := by
  induction numbers generalizing dc with
  | nil => simp
  | cons n numbers ih =>
    rw [List.foldl_cons, ih _ (fun m hm => hpos m (List.mem_cons_of_mem n hm)),
      count_divisors_val (hpos n (List.mem_cons_self ..)), List.countP_cons]
    simp only [decide_eq_true_eq]
    omega

theorem build_foldl_keys_mono (numbers : List Nat) (dc : DivisorCounts) :
    dc.keys ⊆ (numbers.foldl (fun dc n => count_divisors n dc) dc).keys := by
  induction numbers generalizing dc with
  | nil => exact fun x hx => hx
  | cons n numbers ih =>
    exact (foldl_cd_step_keys_mono ..).trans (ih (count_divisors n dc))

theorem build_foldl_keys_mem {numbers : List Nat} {n d : Nat} (hn : n ∈ numbers)
    (hnpos : 0 < n) (hd : d ∣ n) (dc : DivisorCounts) :
    d ∈ (numbers.foldl (fun dc n => count_divisors n dc) dc).keys := by
  induction numbers generalizing dc with
  | nil => simp at hn
  | cons m numbers ih =>
    rw [List.foldl_cons]
    rcases List.mem_cons.mp hn with rfl | hmem
    · exact build_foldl_keys_mono numbers _ (count_divisors_keys_mem hnpos hd dc)
    · exact ih hmem _

theorem build_divisor_counts_keys_nodup (numbers : List Nat) :
    (build_divisor_counts numbers).keys.Nodup := by
  rw [build_divisor_counts]
  have : (⟨[], fun _ => 0⟩ : DivisorCounts).keys.Nodup := List.nodup_nil
  generalize (⟨[], fun _ => 0⟩ : DivisorCounts) = dc at this
  induction numbers generalizing dc with
  | nil => exact this
  | cons n numbers ih => exact ih _ (count_divisors_keys_nodup this)

/-- Claim C5: for positive candidates, the divisor-count dictionary has a key
for every divisor of every candidate, and the count stored at every key `d`
is exactly the number of candidates `n` with `n % d == 0`. -/
theorem build_divisor_counts_spec (numbers : List Nat)
    (hpos : ∀ n ∈ numbers, 0 < n) :
    (∀ n ∈ numbers, ∀ d, d ∣ n → d ∈ (build_divisor_counts numbers).keys) ∧
      ∀ d ∈ (build_divisor_counts numbers).keys,
        (build_divisor_counts numbers).val d =
          numbers.countP (fun n => n % d == 0) := by
  constructor
  · intro n hn d hd
    exact build_foldl_keys_mem hn (hpos n hn) hd _
  · intro d _
    rw [build_divisor_counts, build_foldl_val d numbers _ hpos]
    have : numbers.countP (fun n => decide (d ∣ n)) =
        numbers.countP (fun n => n % d == 0) := by
      refine List.countP_congr ?_
      intro n _
      rcases Decidable.em (d ∣ n) with hdvd | hdvd
      · simp [hdvd, Nat.mod_eq_zero_of_dvd hdvd]
      · have hmod : ¬n % d = 0 := fun hm => hdvd (Nat.dvd_of_mod_eq_zero hm)
        simp [hdvd, hmod]
    rw [this]
    simp

/-- Claim C5 witness: the dictionary built from `[12, 5]`. -/
theorem build_divisor_counts_spec_witness :
    (∀ n ∈ ([12, 5] : List Nat), 0 < n) ∧
      ∀ n ∈ ([12, 5] : List Nat), ∀ d, d ∣ n →
        d ∈ (build_divisor_counts [12, 5]).keys :=
  ⟨by decide, (build_divisor_counts_spec [12, 5] (by decide)).1⟩

/-! ### C6: backtrack undoes the commit exactly -/

theorem getD_eq_get {α : Type} {l : List α} {j : Nat} (d : α) (h : j < l.length) :
    l.getD j d = l.get ⟨j, h⟩ := by
  rw [List.getD_eq_getElem?_getD, List.getElem?_eq_getElem h]
  rfl

theorem getD_set_self {α : Type} {cs : List α} {i : Nat} {v d : α}
    (h : i < cs.length) : (cs.set i v).getD i d = v := by
  rw [List.getD_eq_getElem?_getD, List.getElem?_set_self h]
  rfl

theorem getD_set_ne {α : Type} {cs : List α} {i j : Nat} (h : i ≠ j) (v d : α) :
    (cs.set i v).getD j d = cs.getD j d := by
  rw [List.getD_eq_getElem?_getD, List.getElem?_set_ne h, ← List.getD_eq_getElem?_getD]

theorem add_digits_length (cs : List (Finset Char)) (ps : List (Nat × Char)) :
    (add_digits cs ps).length = cs.length := by
  unfold add_digits
  induction ps generalizing cs with
  | nil => rfl
  | cons p ps ih => rw [List.foldl_cons, ih, List.length_set]

theorem remove_digits_length (cs : List (Finset Char)) (ps : List (Nat × Char)) :
    (remove_digits cs ps).length = cs.length := by
  unfold remove_digits
  induction ps generalizing cs with
  | nil => rfl
  | cons p ps ih => rw [List.foldl_cons, ih, List.length_set]

theorem add_digits_getD (ps : List (Nat × Char)) (cs : List (Finset Char)) (j : Nat)
    (hj : j < cs.length) :
    (add_digits cs ps).getD j ∅ =
      ((ps.filter (fun p => p.1 = j)).map Prod.snd).foldl (fun s d => insert d s)
        (cs.getD j ∅) := by
  induction ps generalizing cs with
  | nil => rfl
  | cons p ps ih =>
    rw [add_digits, List.foldl_cons, ← add_digits]
    by_cases hpj : p.1 = j
    · have hj' : p.1 < cs.length := hpj ▸ hj
      rw [ih _ (by rw [List.length_set]; exact hj)]
      have h1 : (cs.set p.1 (insert p.2 (cs.getD p.1 ∅))).getD j ∅ =
          insert p.2 (cs.getD j ∅) := by
        rw [← hpj, getD_set_self hj']
      rw [h1, List.filter_cons, if_pos (by simp [hpj]), List.map_cons, List.foldl_cons]
    · rw [ih _ (by rw [List.length_set]; exact hj), getD_set_ne hpj, List.filter_cons,
        if_neg (by simp [hpj])]

theorem remove_digits_getD (ps : List (Nat × Char)) (cs : List (Finset Char)) (j : Nat)
    (hj : j < cs.length) :
    (remove_digits cs ps).getD j ∅ =
      ((ps.filter (fun p => p.1 = j)).map Prod.snd).foldl (fun s d => s.erase d)
        (cs.getD j ∅) := by
  induction ps generalizing cs with
  | nil => rfl
  | cons p ps ih =>
    rw [remove_digits, List.foldl_cons, ← remove_digits]
    by_cases hpj : p.1 = j
    · have hj' : p.1 < cs.length := hpj ▸ hj
      rw [ih _ (by rw [List.length_set]; exact hj)]
      have h1 : (cs.set p.1 ((cs.getD p.1 ∅).erase p.2)).getD j ∅ =
          (cs.getD j ∅).erase p.2 := by
        rw [← hpj, getD_set_self hj']
      rw [h1, List.filter_cons, if_pos (by simp [hpj]), List.map_cons, List.foldl_cons]
    · rw [ih _ (by rw [List.length_set]; exact hj), getD_set_ne hpj, List.filter_cons,
        if_neg (by simp [hpj])]

theorem foldl_insert_comm (ds : List Char) (a : Char) (s : Finset Char) :
    ds.foldl (fun s d => insert d s) (insert a s) =
      insert a (ds.foldl (fun s d => insert d s) s) := by
  induction ds generalizing s with
  | nil => rfl
  | cons d ds ih => rw [List.foldl_cons, List.foldl_cons, Finset.Insert.comm, ih]

theorem mem_foldl_insert (ds : List Char) (s : Finset Char) (x : Char) :
    x ∈ ds.foldl (fun s d => insert d s) s ↔ x ∈ ds ∨ x ∈ s := by
  induction ds generalizing s with
  | nil => simp
  | cons d ds ih =>
    rw [List.foldl_cons, ih]
    simp only [Finset.mem_insert, List.mem_cons]
    tauto

theorem foldl_erase_foldl_insert (ds : List Char) (s : Finset Char) (hnd : ds.Nodup)
    (hfresh : ∀ d ∈ ds, d ∉ s) :
    ds.foldl (fun s d => s.erase d) (ds.foldl (fun s d => insert d s) s) = s := by
  induction ds generalizing s with
  | nil => rfl
  | cons d ds ih =>
    rw [List.foldl_cons, List.foldl_cons, foldl_insert_comm, Finset.erase_insert, ih]
    · exact (List.nodup_cons.mp hnd).2
    · exact fun e he => hfresh e (List.mem_cons_of_mem d he)
    · rw [mem_foldl_insert]
      rintro (hd | hd)
      · exact (List.nodup_cons.mp hnd).1 hd
      · exact hfresh d (List.mem_cons_self ..) hd

theorem filter_map_snd_nodup {l : List (Nat × Char)} (h : (l.map Prod.snd).Nodup)
    (j : Nat) : ((l.filter (fun p => p.1 = j)).map Prod.snd).Nodup :=
  h.sublist (List.Sublist.map _ (List.filter_sublist l))

theorem remove_add_digits (cs : List (Finset Char)) (ps : List (Nat × Char))
    (hidx : ∀ p ∈ ps, p.1 < cs.length)
    (hnd : (ps.map Prod.snd).Nodup)
    (hfresh : ∀ p ∈ ps, p.2 ∉ cs.getD p.1 ∅) :
    remove_digits (add_digits cs ps) ps = cs := by
  refine List.ext_get ?_ ?_
  · rw [remove_digits_length, add_digits_length]
  · intro j h1 h2
    have hj : j < cs.length := h2
    have hja : j < (add_digits cs ps).length := by rw [add_digits_length]; exact hj
    rw [← getD_eq_get ∅ h1, ← getD_eq_get ∅ h2, remove_digits_getD _ _ _ hja,
      add_digits_getD _ _ _ hj]
    refine foldl_erase_foldl_insert _ _ (filter_map_snd_nodup hnd j) ?_
    intro d hd
    rw [List.mem_map] at hd
    obtain ⟨p, hp, rfl⟩ := hd
    rw [List.mem_filter, decide_eq_true_eq] at hp
    exact hp.2 ▸ hfresh p hp.1

theorem placement_ok_iff {columns boxes : List (Finset Char)} {row_idx : Nat}
    {num : List Char} :
    placement_ok columns boxes row_idx num = true ↔
      ∀ p ∈ num.enum, p.2 ∉ columns.getD p.1 ∅ ∧
        p.2 ∉ boxes.getD ((row_idx / 3) * 3 + p.1 / 3) ∅ := by
  simp [placement_ok, List.all_eq_true]

theorem mem_enum_fst_lt {l : List Char} {p : Nat × Char} (h : p ∈ l.enum) :
    p.1 < l.length := by
  rw [List.mem_enum_iff_getElem?] at h
  exact (List.getElem?_eq_some.mp h).1

theorem box_pairs_map_snd (row_idx : Nat) (num : List Char) :
    (box_pairs row_idx num).map Prod.snd = num := by
  rw [box_pairs, List.map_map]
  exact List.enum_map_snd num

/-- Undoing a commit restores the state exactly, given distinct digits and the
used-set and placement checks that the search performs before committing. -/
theorem uncommit_commit_eq (st : SearchState) (num : List Char)
    (hcols : st.columns.length = 9) (hboxes : st.boxes.length = 9)
    (hrow : st.grid.length < 9) (hlen : num.length = 9) (hnd : num.Nodup)
    (hused : num ∉ st.used)
    (hok : placement_ok st.columns st.boxes st.grid.length num = true) :
    uncommit st.grid.length num (commit st.grid.length num st) = st := by
  obtain ⟨g, u, cs, bs⟩ := st
  simp only at hcols hboxes hrow hused hok
  simp only [uncommit, commit, SearchState.mk.injEq]
  refine ⟨List.dropLast_concat, Finset.erase_insert hused, ?_, ?_⟩
  · refine remove_add_digits cs (col_pairs num) ?_ ?_ ?_
    · intro p hp
      have := mem_enum_fst_lt hp
      omega
    · rw [col_pairs, List.enum_map_snd]
      exact hnd
    · intro p hp
      exact ((placement_ok_iff.mp hok) p hp).1
  · refine remove_add_digits bs (box_pairs g.length num) ?_ ?_ ?_
    · intro p hp
      rw [box_pairs, List.mem_map] at hp
      obtain ⟨q, hq, rfl⟩ := hp
      have := mem_enum_fst_lt hq
      simp only
      omega
    · rw [box_pairs_map_snd]
      exact hnd
    · intro p hp
      rw [box_pairs, List.mem_map] at hp
      obtain ⟨q, hq, rfl⟩ := hp
      exact ((placement_ok_iff.mp hok) q hq).2

/-- Claim C6: at any search state of the backtracking loop (column and box set
lists of length 9, current depth below 9), for any tried candidate with nine
pairwise-distinct digits that passed the used-set check and the column/box
validity check, the undo step restores the state exactly: the grid, the
used set, all nine column sets and all nine box sets return to their values
from immediately before the commit. -/
theorem backtrack_undo_exact (st : SearchState) (num : List Char)
    (hcols : st.columns.length = 9) (hboxes : st.boxes.length = 9)
    (hrow : st.grid.length < 9) (hlen : num.length = 9) (hnd : num.Nodup)
    (hused : num ∉ st.used)
    (hok : placement_ok st.columns st.boxes st.grid.length num = true) :
    uncommit st.grid.length num (commit st.grid.length num st) = st :=
  uncommit_commit_eq st num hcols hboxes hrow hlen hnd hused hok

/-- Claim C6 witness: committing and undoing one candidate on the empty search
state. -/
theorem backtrack_undo_exact_witness :
    ((⟨[], ∅, List.replicate 9 ∅, List.replicate 9 ∅⟩ : SearchState).columns.length = 9 ∧
        (['0', '6', '1', '7', '2', '8', '3', '9', '5'] : List Char).Nodup) ∧
      uncommit 0 ['0', '6', '1', '7', '2', '8', '3', '9', '5']
          (commit 0 ['0', '6', '1', '7', '2', '8', '3', '9', '5']
            ⟨[], ∅, List.replicate 9 ∅, List.replicate 9 ∅⟩) =
        ⟨[], ∅, List.replicate 9 ∅, List.replicate 9 ∅⟩ :=
  ⟨⟨by decide, by decide⟩,
    backtrack_undo_exact ⟨[], ∅, List.replicate 9 ∅, List.replicate 9 ∅⟩
      ['0', '6', '1', '7', '2', '8', '3', '9', '5'] (by decide) (by decide) (by decide)
      (by decide) (by decide) (by decide) (by decide)⟩

/-! ### C1: soundness of the backtracking grid assembler -/

/-- The digit of grid `g` at row `i`, column `c`. -/
def cell (g : List (List Char)) (i c : Nat) : Char := (g.getD i []).getD c ' '

/-- No column of the (partial) grid repeats a digit. -/
def col_distinct (g : List (List Char)) : Prop :=
  ∀ c i j, c < 9 → i < j → j < g.length → cell g i c ≠ cell g j c

/-- No 3x3 box of the (partial) grid repeats a digit. -/
def box_distinct (g : List (List Char)) : Prop :=
  ∀ i c i' c', i < g.length → i' < g.length → c < 9 → c' < 9 → i / 3 = i' / 3 →
    c / 3 = c' / 3 → (i, c) ≠ (i', c') → cell g i c ≠ cell g i' c'

/-- The invariant of the backtracking state: the tracking sets have length 9,
every placed row is eligible for its index, the column and box sets contain
the digits of the placed rows, and the placed rows are column- and
box-distinct. -/
structure SearchInv (numbers : List (List Char)) (st : SearchState) : Prop where
  cols_len : st.columns.length = 9
  boxes_len : st.boxes.length = 9
  grid_le : st.grid.length ≤ 9
  rows_mem : ∀ i, i < st.grid.length →
    st.grid.getD i [] ∈ categorize_numbers_by_row numbers i
  col_mem : ∀ i c, i < st.grid.length → c < 9 →
    cell st.grid i c ∈ st.columns.getD c ∅
  box_mem : ∀ i c, i < st.grid.length → c < 9 →
    cell st.grid i c ∈ st.boxes.getD ((i / 3) * 3 + c / 3) ∅
  col_dist : col_distinct st.grid
  box_dist : box_distinct st.grid

/-- The final property established for every returned grid. -/
def good_grid (numbers : List (List Char)) (g : List (List Char)) : Prop :=
  g.length = 9 ∧ col_distinct g ∧ box_distinct g ∧
    ∀ i, i < 9 → g.getD i [] ∈ categorize_numbers_by_row numbers i

theorem getD_append_lt {α : Type} (l₁ l₂ : List α) (d : α) (i : Nat)
    (h : i < l₁.length) : (l₁ ++ l₂).getD i d = l₁.getD i d := by
  rw [List.getD_eq_getElem?_getD, List.getElem?_append, if_pos h,
    ← List.getD_eq_getElem?_getD]

theorem getD_concat_self {α : Type} (l : List α) (a : α) (d : α) :
    (l ++ [a]).getD l.length d = a := by
  rw [List.getD_eq_getElem?_getD, List.getElem?_concat_length]
  rfl

theorem mem_enum_of_lt {num : List Char} {c : Nat} (h : c < num.length) :
    (c, num.getD c ' ') ∈ num.enum := by
  rw [List.mem_enum_iff_getElem?, List.getElem?_eq_getElem h, getD_eq_get ' ' h]
  rfl

theorem nodup_getD_ne {num : List Char} (hnd : num.Nodup) {c c' : Nat}
    (hc : c < num.length) (hc' : c' < num.length) (hne : c ≠ c') :
    num.getD c ' ' ≠ num.getD c' ' ' := by
  rw [getD_eq_get ' ' hc, getD_eq_get ' ' hc']
  intro h
  have h2 := hnd.get_inj_iff.mp h
  exact hne (congrArg Fin.val h2)

theorem add_digits_getD_subset (cs : List (Finset Char)) (ps : List (Nat × Char))
    (j : Nat) : cs.getD j ∅ ⊆ (add_digits cs ps).getD j ∅ := by
  rcases Nat.lt_or_ge j cs.length with hj | hj
  · rw [add_digits_getD _ _ _ hj]
    intro x hx
    rw [mem_foldl_insert]
    exact Or.inr hx
  · rw [List.getD_eq_default _ _ hj,
      List.getD_eq_default _ _ (by rw [add_digits_length]; exact hj)]

theorem add_digits_getD_mem (cs : List (Finset Char)) (ps : List (Nat × Char))
    (p : Nat × Char) (hp : p ∈ ps) (hlt : p.1 < cs.length) :
    p.2 ∈ (add_digits cs ps).getD p.1 ∅ := by
  rw [add_digits_getD _ _ _ hlt, mem_foldl_insert]
  refine Or.inl (List.mem_map.mpr ⟨p, List.mem_filter.mpr ⟨hp, by simp⟩, rfl⟩)

theorem search_inv_commit {numbers : List (List Char)} {st : SearchState}
    {num : List Char} (hA : ∀ x ∈ numbers, x.length = 9 ∧ x.Nodup)
    (hinv : SearchInv numbers st) (hlt : st.grid.length < 9)
    (hnum : num ∈ categorize_numbers_by_row numbers st.grid.length)
    (hok : placement_ok st.columns st.boxes st.grid.length num = true) :
    SearchInv numbers (commit st.grid.length num st) := by
  obtain ⟨hlen, hnd⟩ := hA num (List.mem_filter.mp hnum).1
  have hcell_old : ∀ i c, i < st.grid.length →
      cell (st.grid ++ [num]) i c = cell st.grid i c := by
    intro i c hi
    unfold cell
    rw [getD_append_lt _ _ _ _ hi]
  have hcell_new : ∀ c, cell (st.grid ++ [num]) st.grid.length c = num.getD c ' ' := by
    intro c
    unfold cell
    rw [getD_concat_self]
  have hok' := placement_ok_iff.mp hok
  refine ⟨?_, ?_, ?_, ?_, ?_, ?_, ?_, ?_⟩
  · rw [commit, add_digits_length, hinv.cols_len]
  · rw [commit, add_digits_length, hinv.boxes_len]
  · simp only [commit, List.length_append, List.length_singleton]
    omega
  · intro i hi
    simp only [commit, List.length_append, List.length_singleton] at hi
    rcases Nat.lt_or_ge i st.grid.length with hilt | hige
    · simp only [commit]
      rw [getD_append_lt _ _ _ _ hilt]
      exact hinv.rows_mem i hilt
    · have : i = st.grid.length := by omega
      subst this
      simp only [commit]
      rw [getD_concat_self]
      exact hnum
  · intro i c hi hc
    simp only [commit, List.length_append, List.length_singleton] at hi
    rcases Nat.lt_or_ge i st.grid.length with hilt | hige
    · simp only [commit]
      rw [hcell_old i c hilt]
      exact add_digits_getD_subset _ _ _ (hinv.col_mem i c hilt hc)
    · have : i = st.grid.length := by omega
      subst this
      simp only [commit]
      rw [hcell_new c]
      exact add_digits_getD_mem st.columns (col_pairs num) (c, num.getD c ' ')
        (mem_enum_of_lt (by omega)) (by rw [hinv.cols_len]; exact hc)
  · intro i c hi hc
    simp only [commit, List.length_append, List.length_singleton] at hi
    rcases Nat.lt_or_ge i st.grid.length with hilt | hige
    · simp only [commit]
      rw [hcell_old i c hilt]
      exact add_digits_getD_subset _ _ _ (hinv.box_mem i c hilt hc)
    · have : i = st.grid.length := by omega
      subst this
      simp only [commit]
      rw [hcell_new c]
      refine add_digits_getD_mem st.boxes (box_pairs st.grid.length num)
        ((st.grid.length / 3) * 3 + c / 3, num.getD c ' ') ?_ ?_
      · rw [box_pairs, List.mem_map]
        exact ⟨(c, num.getD c ' '), mem_enum_of_lt (by omega), rfl⟩
      · rw [hinv.boxes_len]
        simp only
        omega
  · intro c i j hc hij hj
    simp only [commit, List.length_append, List.length_singleton] at hj
    rcases Nat.lt_or_ge j st.grid.length with hjlt | hjge
    · simp only [commit]
      rw [hcell_old i c (by omega), hcell_old j c hjlt]
      exact hinv.col_dist c i j hc hij hjlt
    · have : j = st.grid.length := by omega
      subst this
      simp only [commit]
      rw [hcell_old i c hij, hcell_new c]
      intro heq
      have hmem := hinv.col_mem i c hij hc
      rw [heq] at hmem
      exact ((hok' (c, num.getD c ' ') (mem_enum_of_lt (by omega))).1) hmem
  · intro i c i' c' hi hi' hc hc' hi3 hc3 hne
    simp only [commit, List.length_append, List.length_singleton] at hi hi'
    rcases Nat.lt_or_ge i st.grid.length with hilt | hige <;>
      rcases Nat.lt_or_ge i' st.grid.length with hilt' | hige'
    · simp only [commit]
      rw [hcell_old i c hilt, hcell_old i' c' hilt']
      exact hinv.box_dist i c i' c' hilt hilt' hc hc' hi3 hc3 hne
    · have : i' = st.grid.length := by omega
      subst this
      simp only [commit]
      rw [hcell_old i c hilt, hcell_new c']
      intro heq
      have hmem := hinv.box_mem i c hilt hc
      rw [heq] at hmem
      have hbox := (hok' (c', num.getD c' ' ') (mem_enum_of_lt (by omega))).2
      rw [show (st.grid.length / 3) * 3 + c' / 3 = (i / 3) * 3 + c / 3 from by
        rw [hi3, hc3]] at hbox
      exact hbox hmem
    · have : i = st.grid.length := by omega
      subst this
      simp only [commit]
      rw [hcell_old i' c' hilt', hcell_new c]
      intro heq
      have hmem := hinv.box_mem i' c' hilt' hc'
      rw [← heq] at hmem
      have hbox := (hok' (c, num.getD c ' ') (mem_enum_of_lt (by omega))).2
      rw [show (st.grid.length / 3) * 3 + c / 3 = (i' / 3) * 3 + c' / 3 from by
        rw [← hi3, ← hc3]] at hbox
      exact hbox hmem
    · have h1 : i = st.grid.length := by omega
      have h2 : i' = st.grid.length := by omega
      subst h1
      have hcc : c ≠ c' := by
        intro h
        exact hne (by rw [h, h2])
      simp only [commit]
      rw [hcell_new c, h2, hcell_new c']
      exact nodup_getD_ne hnd (by omega) (by omega) hcc

theorem try_candidates_sound {numbers : List (List Char)}
    (hA : ∀ x ∈ numbers, x.length = 9 ∧ x.Nodup) (fuel : Nat)
    (hgo : ∀ st' g, SearchInv numbers st' →
      backtrack (fun r => categorize_numbers_by_row numbers r) fuel st' = some g →
      good_grid numbers g)
    (cands : List (List Char)) :
    ∀ (st : SearchState) (g : List (List Char)),
      (∀ x ∈ cands, x ∈ categorize_numbers_by_row numbers st.grid.length) →
      SearchInv numbers st → st.grid.length < 9 →
      try_candidates
          (fun st' => backtrack (fun r => categorize_numbers_by_row numbers r) fuel st')
          st cands = some g →
      good_grid numbers g := by
  induction cands with
  | nil =>
    intro st g _ _ _ h
    simp [try_candidates] at h
  | cons num rest ih =>
    intro st g hsub hinv hlt h
    have hnum : num ∈ categorize_numbers_by_row numbers st.grid.length :=
      hsub num (List.mem_cons_self ..)
    obtain ⟨hlen, hnd⟩ := hA num (List.mem_filter.mp hnum).1
    have hsub' : ∀ x ∈ rest, x ∈ categorize_numbers_by_row numbers st.grid.length :=
      fun x hx => hsub x (List.mem_cons_of_mem num hx)
    rw [try_candidates] at h
    by_cases hused : num ∈ st.used
    · rw [if_pos hused] at h
      exact ih st g hsub' hinv hlt h
    · rw [if_neg hused] at h
      by_cases hok : placement_ok st.columns st.boxes st.grid.length num = true
      · rw [if_pos hok] at h
        rcases hres : backtrack (fun r => categorize_numbers_by_row numbers r) fuel
            (commit st.grid.length num st) with _ | g'
        · rw [hres] at h
          dsimp only at h
          rw [uncommit_commit_eq st num hinv.cols_len hinv.boxes_len hlt hlen hnd
            hused hok] at h
          exact ih st g hsub' hinv hlt h
        · rw [hres] at h
          dsimp only at h
          obtain rfl : g' = g := Option.some.inj h
          exact hgo _ g' (search_inv_commit hA hinv hlt hnum hok) hres
      · rw [if_neg hok] at h
        exact ih st g hsub' hinv hlt h

theorem backtrack_sound {numbers : List (List Char)}
    (hA : ∀ x ∈ numbers, x.length = 9 ∧ x.Nodup) :
    ∀ (fuel : Nat) (st : SearchState) (g : List (List Char)), SearchInv numbers st →
      backtrack (fun r => categorize_numbers_by_row numbers r) fuel st = some g →
      good_grid numbers g := by
  intro fuel
  induction fuel with
  | zero =>
    intro st g hinv h
    rw [backtrack] at h
    by_cases h9 : st.grid.length = 9
    · rw [if_pos h9] at h
      obtain rfl : st.grid = g := Option.some.inj h
      exact ⟨h9, hinv.col_dist, hinv.box_dist, fun i hi => hinv.rows_mem i (by omega)⟩
    · rw [if_neg h9] at h
      exact Option.noConfusion h
  | succ fuel ih =>
    intro st g hinv h
    rw [backtrack] at h
    by_cases h9 : st.grid.length = 9
    · rw [if_pos h9] at h
      obtain rfl : st.grid = g := Option.some.inj h
      exact ⟨h9, hinv.col_dist, hinv.box_dist, fun i hi => hinv.rows_mem i (by omega)⟩
    · rw [if_neg h9] at h
      have hlt : st.grid.length < 9 := Nat.lt_of_le_of_ne hinv.grid_le h9
      exact try_candidates_sound hA fuel (fun st' g' hinv' h' => ih st' g' hinv' h')
        (categorize_numbers_by_row numbers st.grid.length) st g (fun x hx => hx) hinv
        hlt h

theorem row_clue_none_of_ge : ∀ r : Nat, 9 ≤ r → row_clue r = none := by
  intro r h
  rcases r with _ | _ | _ | _ | _ | _ | _ | _ | _ | r
  · omega
  · omega
  · omega
  · omega
  · omega
  · omega
  · omega
  · omega
  · omega
  · rfl

theorem row_clue_lt {r : Nat} {pd : Nat × Char} (h : row_clue r = some pd) : r < 9 := by
  by_contra hge
  rw [row_clue_none_of_ge r (by omega)] at h
  exact Option.noConfusion h

theorem find_valid_row_clue {num : List Char} {r pos : Nat} {digit : Char}
    (h : find_valid_row_for_number num get_row_constraints = some r)
    (hclue : row_clue r = some (pos, digit)) : num.getD pos ' ' = digit := by
  unfold find_valid_row_for_number at h
  rcases hm : matching_rows num get_row_constraints with _ | ⟨r', _ | ⟨r'', rest⟩⟩
  · rw [hm] at h
    dsimp only at h
    split at h
    · obtain rfl : (4 : Nat) = r := Option.some.inj h
      simp [row_clue] at hclue
    · exact Option.noConfusion h
  · rw [hm] at h
    dsimp only at h
    have hrr : r' = r := Option.some.inj h
    subst hrr
    have hr : r' ∈ matching_rows num get_row_constraints := by
      rw [hm]
      exact List.mem_singleton_self r'
    obtain ⟨-, pos', digit', hclue', hpd, -⟩ := mem_matching_rows_table.mp hr
    rw [hclue] at hclue'
    obtain ⟨rfl, rfl⟩ := Prod.mk.injEq .. ▸ Option.some.injEq .. ▸ hclue'
    exact hpd
  · rw [hm] at h
    dsimp only at h
    exact Option.noConfusion h

/-- Claim C1: when every input candidate is a permutation of a 9-symbol
alphabet, any grid returned by `try_build_sudoku_grid` has pairwise-distinct
digits down every column, pairwise-distinct digits inside every 3x3 box, and
the required clue digit at every fixed (row, column) clue of the constraint
table. -/
theorem try_build_sudoku_grid_sound (symbols : List Char)
    (numbers : List (List Char)) (grid : List (List Char))
    (hsym_len : symbols.length = 9) (hsym_nd : symbols.Nodup)
    (hperm : ∀ num ∈ numbers, num.Perm symbols)
    (hgrid : try_build_sudoku_grid numbers = some grid) :
    (∀ c i j, c < 9 → i < j → j < 9 → cell grid i c ≠ cell grid j c) ∧
      (∀ i c i' c', i < 9 → i' < 9 → c < 9 → c' < 9 → i / 3 = i' / 3 →
        c / 3 = c' / 3 → (i, c) ≠ (i', c') → cell grid i c ≠ cell grid i' c') ∧
      ∀ r pos digit, row_clue r = some (pos, digit) → cell grid r pos = digit := by
  have hA : ∀ x ∈ numbers, x.length = 9 ∧ x.Nodup := by
    intro x hx
    have hp := hperm x hx
    exact ⟨hp.length_eq.trans hsym_len, hp.nodup_iff.mpr hsym_nd⟩
  unfold try_build_sudoku_grid at hgrid
  split at hgrid
  · exact Option.noConfusion hgrid
  · have hinit : SearchInv numbers
        ⟨[], ∅, List.replicate 9 ∅, List.replicate 9 ∅⟩ := by
      refine ⟨List.length_replicate .., List.length_replicate .., by simp, ?_, ?_, ?_,
        ?_, ?_⟩
      · intro i hi
        simp at hi
      · intro i c hi
        simp at hi
      · intro i c hi
        simp at hi
      · intro c i j _ hij hj
        simp at hj
      · intro i c i' c' hi
        simp at hi
    obtain ⟨hlen9, hcol, hbox, hrows⟩ := backtrack_sound hA 9 _ grid hinit hgrid
    refine ⟨fun c i j hc hij hj => hcol c i j hc hij (by omega), ?_, ?_⟩
    · intro i c i' c' hi hi' hc hc' h3 h3' hne
      exact hbox i c i' c' (by omega) (by omega) hc hc' h3 h3' hne
    · intro r pos digit hclue
      have hr : r < 9 := row_clue_lt hclue
      have hmem := hrows r hr
      rw [categorize_numbers_by_row, List.mem_filter] at hmem
      have hfv : find_valid_row_for_number (grid.getD r []) get_row_constraints =
          some r := by
        have := hmem.2
        rwa [beq_iff_eq] at this
      exact find_valid_row_clue hfv hclue

/-- The nine rows of the known solution grid: the cyclic rotations of
`061728395`, all multiples of 12345679 over the alphabet without '4'. -/
def solution_rows : List (List Char) :=
  [['3', '9', '5', '0', '6', '1', '7', '2', '8'],
   ['0', '6', '1', '7', '2', '8', '3', '9', '5'],
   ['7', '2', '8', '3', '9', '5', '0', '6', '1'],
   ['9', '5', '0', '6', '1', '7', '2', '8', '3'],
   ['2', '8', '3', '9', '5', '0', '6', '1', '7'],
   ['6', '1', '7', '2', '8', '3', '9', '5', '0'],
   ['8', '3', '9', '5', '0', '6', '1', '7', '2'],
   ['5', '0', '6', '1', '7', '2', '8', '3', '9'],
   ['1', '7', '2', '8', '3', '9', '5', '0', '6']]

/-- Claim C1 witness: the nine rotation rows assemble into the returned grid,
whose clue cells all hold their required digits. -/
theorem try_build_sudoku_grid_sound_witness :
    ((∀ num ∈ solution_rows,
        num.Perm ['0', '1', '2', '3', '5', '6', '7', '8', '9']) ∧
      try_build_sudoku_grid solution_rows = some solution_rows) ∧
      ∀ r pos digit, row_clue r = some (pos, digit) →
        cell solution_rows r pos = digit :=
  ⟨⟨by decide, by decide⟩,
    (try_build_sudoku_grid_sound ['0', '1', '2', '3', '5', '6', '7', '8', '9']
        solution_rows solution_rows (by decide) (by decide) (by decide)
        (by decide)).2.2⟩

/-! ### C7: the top-level divisor loop -/

theorem qualifying_divisors_sorted (numbers : List Nat) :
    List.Sorted (· > ·) (qualifying_divisors (build_divisor_counts numbers)) := by
  unfold qualifying_divisors
  have hnd : (build_divisor_counts numbers).keys.Nodup :=
    build_divisor_counts_keys_nodup numbers
  have hsorted : List.Sorted (· ≥ ·)
      ((build_divisor_counts numbers).keys.insertionSort (· ≥ ·)) :=
    List.sorted_insertionSort (· ≥ ·) _
  have hnd' : ((build_divisor_counts numbers).keys.insertionSort (· ≥ ·)).Nodup :=
    (List.perm_insertionSort (· ≥ ·) _).nodup_iff.mpr hnd
  have hstrict : List.Sorted (· > ·)
      ((build_divisor_counts numbers).keys.insertionSort (· ≥ ·)) := by
    refine (hsorted.and hnd').imp ?_
    intro a b hab
    omega
  exact hstrict.filter _

theorem run_divisors_first_success (numbers : List Nat) (symbols : Finset Char) :
    ∀ (l : List Nat) (d : Nat) (g : List (List Char)),
      run_divisors numbers symbols l = some (d, g) →
      ∃ pre post, l = pre ++ d :: post ∧
        (∀ d' ∈ pre, analyze_divisor d' numbers symbols = none) ∧
        analyze_divisor d numbers symbols = some g := by
  intro l
  induction l with
  | nil =>
    intro d g h
    simp [run_divisors] at h
  | cons e l ih =>
    intro d g h
    rw [run_divisors] at h
    rcases hres : analyze_divisor e numbers symbols with _ | g'
    · rw [hres] at h
      dsimp only at h
      obtain ⟨pre, post, hl, hpre, hd⟩ := ih d g h
      refine ⟨e :: pre, post, by rw [hl]; rfl, ?_, hd⟩
      intro d' hd'
      rcases List.mem_cons.mp hd' with rfl | hmem
      · exact hres
      · exact hpre d' hmem
    · rw [hres] at h
      dsimp only at h
      obtain ⟨rfl, rfl⟩ := Prod.mk.injEq .. ▸ Option.some.injEq .. ▸ h
      exact ⟨[], l, rfl, by simp, hres⟩

/-- Claim C7: (a) the qualifying-divisor sequence of the top-level loop is
strictly descending; (b) every divisor it contains has frequency count at
least 9 (divisors below the threshold are never passed to the filter,
coverage check, or grid assembler); (c) the loop returns the first divisor of
the analyzed sequence for which the grid build succeeds, every earlier
divisor having been analyzed without success. -/
theorem main_loop_spec :
    (∀ numbers : List Nat,
        List.Sorted (· > ·) (qualifying_divisors (build_divisor_counts numbers))) ∧
      (∀ (numbers : List Nat) (d : Nat),
        d ∈ qualifying_divisors (build_divisor_counts numbers) →
        9 ≤ (build_divisor_counts numbers).val d) ∧
      ∀ (numbers : List Nat) (symbols : Finset Char) (l : List Nat) (d : Nat)
        (g : List (List Char)),
        run_divisors numbers symbols l = some (d, g) →
        ∃ pre post, l = pre ++ d :: post ∧
          (∀ d' ∈ pre, analyze_divisor d' numbers symbols = none) ∧
          analyze_divisor d numbers symbols = some g := by
  refine ⟨qualifying_divisors_sorted, ?_, fun numbers symbols =>
    run_divisors_first_success numbers symbols⟩
  intro numbers d hd
  rw [qualifying_divisors, List.mem_filter] at hd
  exact of_decide_eq_true hd.2

/-- `count_divisors` with the square root supplied by its defining bounds, so
that concrete instances reduce inside the kernel. -/
theorem count_divisors_eval (n s : Nat) (h1 : s * s ≤ n) (h2 : n < (s + 1) * (s + 1))
    (dc : DivisorCounts) :
    count_divisors n dc = (List.range' 1 s).foldl (cd_step n) dc := by
  rw [count_divisors, show Nat.sqrt n = s from (Nat.eq_sqrt.mpr ⟨h1, h2⟩).symm]

/-- The nine solution rows as integers, as the candidate population of the
claim C7 witness. -/
def solution_numbers : List Nat :=
  [395061728, 61728395, 728395061, 950617283, 283950617, 617283950, 839506172,
   506172839, 172839506]

/-- Nine copies of 12, the divisor-count population of the claim C7 witness. -/
def twelve_nine : List Nat := [12, 12, 12, 12, 12, 12, 12, 12, 12]

set_option maxRecDepth 100000 in
/-- Claim C7 witness: on nine copies of 12 the qualifying divisors include 12
with count 9, and on the solution-row integers the loop run on the single
divisor 12345679 returns it as the first success together with the grid. -/
theorem main_loop_spec_witness :
    (12 ∈ qualifying_divisors (build_divisor_counts twelve_nine) ∧
        9 ≤ (build_divisor_counts twelve_nine).val 12) ∧
      ∃ pre post, ([12345679] : List Nat) = pre ++ 12345679 :: post ∧
        (∀ d' ∈ pre, analyze_divisor d'
          solution_numbers {'0', '1', '2', '3', '5', '6', '7', '8', '9'} = none) ∧
        analyze_divisor 12345679 solution_numbers
          {'0', '1', '2', '3', '5', '6', '7', '8', '9'} = some solution_rows :=
  ⟨⟨by
      simp only [twelve_nine, build_divisor_counts, List.foldl,
        count_divisors_eval 12 3 (by decide) (by decide)]
      decide,
    main_loop_spec.2.1 twelve_nine 12 (by
      simp only [twelve_nine, build_divisor_counts, List.foldl,
        count_divisors_eval 12 3 (by decide) (by decide)]
      decide)⟩,
    main_loop_spec.2.2 solution_numbers {'0', '1', '2', '3', '5', '6', '7', '8', '9'}
      [12345679] 12345679 solution_rows (by decide)⟩
